import Mathlib

/-!
Verification of the LU factorization/solve subsystem of
`cupyx/scipy/linalg/decomp_lu.py`.

The two custom data-parallel kernels (`cupy_split_lu`, `cupy_laswp`) are
embedded as sequential folds over the task index space of the elementwise
kernel, acting on flat buffers (`Nat → α`), exactly mirroring the CUDA
addressing in the source.  The status-code handling, finiteness checks,
pivot-origin translation and dtype dispatch of `_lu_factor` / `lu` /
`lu_solve` are embedded as pure functions over explicit value models.
-/

namespace CupyLU

/-- A flat device buffer, addressed by natural numbers. -/
abbrev Buf (α : Type) : Type := Nat → α

/-- Store a value at one address of a buffer. -/
def writeBuf {α : Type} (b : Buf α) (addr : Nat) (v : α) : Buf α :=
  fun a => if a = addr then v else b a

lemma writeBuf_ne {α : Type} (b : Buf α) (addr : Nat) (v : α) (a : Nat)
    (h : a ≠ addr) : writeBuf b addr v a = b a := if_neg h

lemma writeBuf_self {α : Type} (b : Buf α) (addr : Nat) (v : α) :
    writeBuf b addr v addr = v := if_pos rfl

/-- Decomposition of a flat row/column index: the remainder part. -/
lemma decompose_mod (c r N : Nat) (h : c < N) : (c + r * N) % N = c := by
  rw [Nat.add_mul_mod_self_right, Nat.mod_eq_of_lt h]

/-- Decomposition of a flat row/column index: the quotient part. -/
lemma decompose_div (c r N : Nat) (h : c < N) : (c + r * N) / N = r := by
  have hN : 0 < N := Nat.lt_of_le_of_lt (Nat.zero_le c) h
  rw [Nat.add_mul_div_right _ _ hN, Nat.div_eq_of_lt h, Nat.zero_add]

/-- A flat grid index `c + r * N` with `r < M`, `c < N` is below `M * N`. -/
lemma grid_index_lt (r c M N : Nat) (hr : r < M) (hc : c < N) :
    c + r * N < M * N := by
  calc c + r * N < N + r * N := Nat.add_lt_add_right hc _
  _ = (r + 1) * N := by rw [Nat.succ_mul, Nat.add_comm]
  _ ≤ M * N := Nat.mul_le_mul_right N hr

/-- `addr` decompositions with bounded remainder are unique. -/
lemma addr_unique {a b c d K : Nat} (ha : a < K) (hc : c < K)
    (h : a + b * K = c + d * K) : a = c ∧ b = d := by
  refine ⟨?_, ?_⟩
  · have h1 := congrArg (· % K) h
    simpa [decompose_mod a b K ha, decompose_mod c d K hc] using h1
  · have h1 := congrArg (· / K) h
    simpa [decompose_div a b K ha, decompose_div c d K hc] using h1

/-- A single guarded write into a buffer, the shape of one elementwise-kernel
task that conditionally stores one value at a computed address. -/
def gwStep {α : Type} (g : Nat → Prop) [DecidablePred g] (addr : Nat → Nat)
    (val : Nat → α) (b : Buf α) (i : Nat) : Buf α :=
  if g i then writeBuf b (addr i) (val i) else b

lemma gwStep_ne {α : Type} {g : Nat → Prop} [DecidablePred g]
    {addr : Nat → Nat} {val : Nat → α} {b : Buf α} {i a : Nat}
    (h : g i → addr i ≠ a) : gwStep g addr val b i a = b a := by
  unfold gwStep
  by_cases hg : g i
  · rw [if_pos hg]
    exact writeBuf_ne _ _ _ _ (fun he => (h hg) he.symm)
  · rw [if_neg hg]

/-- Replaying guarded writes whose addresses all avoid `a` leaves `a`
unchanged. -/
lemma gw_foldl_unchanged {α : Type} (g : Nat → Prop) [DecidablePred g]
    (addr : Nat → Nat) (val : Nat → α) (l : List Nat) (b : Buf α) (a : Nat)
    (h : ∀ i ∈ l, g i → addr i ≠ a) :
    l.foldl (gwStep g addr val) b a = b a := by
  induction l generalizing b with
  | nil => rfl
  | cons x xs ih =>
      rw [List.foldl_cons, ih _ (fun i hi => h i (List.mem_cons_of_mem _ hi))]
      exact gwStep_ne (h x (List.mem_cons_self x xs))

/-- The value at an address written by exactly one task (and by no later
task) is the value that task stored. -/
lemma gw_foldl_write {α : Type} (g : Nat → Prop) [DecidablePred g]
    (addr : Nat → Nat) (val : Nat → α) (l1 l2 : List Nat) (i0 : Nat)
    (b : Buf α) (hg : g i0)
    (h2 : ∀ i ∈ l2, g i → addr i ≠ addr i0) :
    (l1 ++ i0 :: l2).foldl (gwStep g addr val) b (addr i0) = val i0 := by
  rw [List.foldl_append, List.foldl_cons,
    gw_foldl_unchanged g addr val l2 _ _ h2]
  unfold gwStep
  rw [if_pos hg]
  exact writeBuf_self _ _ _

/-- `List.range n` splits at any `i0 < n`, with every later element above
`i0`. -/
lemma range_split (n i0 : Nat) (h : i0 < n) :
    ∃ l2 : List Nat,
      List.range n = List.range i0 ++ i0 :: l2 ∧ ∀ i ∈ l2, i0 < i := by
  refine ⟨(List.range (n - (i0 + 1))).map (fun t => i0 + 1 + t), ?_, ?_⟩
  · have hn : n = (i0 + 1) + (n - (i0 + 1)) := by omega
    conv_lhs => rw [hn]
    rw [List.range_add, List.range_succ]
    simp [List.append_assoc]
  · intro i hi
    simp only [List.mem_map] at hi
    obtain ⟨t, _, ht⟩ := hi
    omega

/-! ### The `cupy_split_lu` elementwise kernel -/

/-- The per-task value computation of the `cupy_split_lu` kernel body at flat
task index `i` over the `(M, N)` grid: `row = i / N`, `col = i % N`,
`lu_val = LU[row + col * M]` (column-major read), and the `(l_val, u_val)`
pair follows the `row > col` / `row == col` / `row < col` branches. -/
def split_lu_vals {α : Type} [Zero α] [One α] (LU : Buf α) (M N : Nat)
    (i : Nat) : α × α :=
  let row := i / N
  let col := i % N
  let lu_val := LU (row + col * M)
  if row > col then (lu_val, 0)
  else if row = col then (1, lu_val)
  else (0, lu_val)

/-- One task of the `cupy_split_lu` kernel: guarded writes
`if (col < K) ptr_L[col + row * K] = l_val` and
`if (row < K) ptr_U[col + row * N] = u_val` on the `(L, U)` state. -/
def cupy_split_lu_task {α : Type} [Zero α] [One α] (LU : Buf α) (M N K : Nat)
    (st : Buf α × Buf α) (i : Nat) : Buf α × Buf α :=
  (if i % N < K then
      writeBuf st.1 (i % N + (i / N) * K) (split_lu_vals LU M N i).1
    else st.1,
   if i / N < K then
      writeBuf st.2 (i % N + (i / N) * N) (split_lu_vals LU M N i).2
    else st.2)

/-- The `cupy_split_lu` kernel launched with `size = m * n`: all `M * N`
tasks replayed in ascending task order on the output buffers `(L, U)`. -/
def cupy_split_lu {α : Type} [Zero α] [One α] (LU : Buf α) (M N K : Nat)
    (L U : Buf α) : Buf α × Buf α :=
  (List.range (M * N)).foldl (cupy_split_lu_task LU M N K) (L, U)

/-- The `L` component of the kernel fold is a fold of guarded writes. -/
lemma cupy_split_lu_fst {α : Type} [Zero α] [One α] (LU : Buf α) (M N K : Nat)
    (l : List Nat) (st : Buf α × Buf α) :
    (l.foldl (cupy_split_lu_task LU M N K) st).1
      = l.foldl (gwStep (fun i => i % N < K) (fun i => i % N + (i / N) * K)
          (fun i => (split_lu_vals LU M N i).1)) st.1 := by
  induction l generalizing st with
  | nil => rfl
  | cons x xs ih =>
      rw [List.foldl_cons, List.foldl_cons, ih]
      rfl

/-- The `U` component of the kernel fold is a fold of guarded writes. -/
lemma cupy_split_lu_snd {α : Type} [Zero α] [One α] (LU : Buf α) (M N K : Nat)
    (l : List Nat) (st : Buf α × Buf α) :
    (l.foldl (cupy_split_lu_task LU M N K) st).2
      = l.foldl (gwStep (fun i => i / N < K) (fun i => i % N + (i / N) * N)
          (fun i => (split_lu_vals LU M N i).2)) st.2 := by
  induction l generalizing st with
  | nil => rfl
  | cons x xs ih =>
      rw [List.foldl_cons, List.foldl_cons, ih]
      rfl

/-- The task-to-`L`-address map is injective on its guarded domain. -/
lemma split_l_addr_inj (N K : Nat) {i j : Nat}
    (hi : i % N < K) (hj : j % N < K)
    (h : i % N + (i / N) * K = j % N + (j / N) * K) : i = j := by
  obtain ⟨hm, hd⟩ := addr_unique hi hj h
  have h1 : N * (i / N) + i % N = N * (j / N) + j % N := by rw [hm, hd]
  rwa [Nat.div_add_mod, Nat.div_add_mod] at h1

/-- The task-to-`U`-address map is the identity on task indices. -/
lemma split_u_addr_eq (N i : Nat) : i % N + (i / N) * N = i :=
  Nat.mod_add_div' i N

/-- Claim C1: for a packed LU buffer of shape `(M, N)` with `K = min M N`,
the extraction kernel produces `L : (M, K)` and `U : (K, N)` with, at every
grid position: `row > col` gives `L[row,col] = lu_val` and `U[row,col] = 0`;
`row == col` gives `L[row,col] = 1` and `U[row,col] = lu_val`; `row < col`
gives `L[row,col] = 0` and `U[row,col] = lu_val`; in particular `L`'s
diagonal is exactly `1` for every input. -/
theorem c1_split_lu_triangular_factors (M N : Nat) (LU L0 U0 : Buf ℤ) :
    (∀ r c, r < M → c < min M N →
        (cupy_split_lu LU M N (min M N) L0 U0).1 (c + r * min M N)
          = if r > c then LU (r + c * M) else if r = c then 1 else 0) ∧
    (∀ r c, r < min M N → c < N →
        (cupy_split_lu LU M N (min M N) L0 U0).2 (c + r * N)
          = if r > c then 0 else LU (r + c * M)) ∧
    (∀ i, i < min M N →
        (cupy_split_lu LU M N (min M N) L0 U0).1 (i + i * min M N) = 1) := by
  have hL : ∀ r c, r < M → c < min M N →
      (cupy_split_lu LU M N (min M N) L0 U0).1 (c + r * min M N)
        = if r > c then LU (r + c * M) else if r = c then 1 else 0 := by
    intro r c hr hc
    have hcN : c < N := lt_of_lt_of_le hc (min_le_right M N)
    have hi0 : c + r * N < M * N := grid_index_lt r c M N hr hcN
    obtain ⟨l2, hrange, hgt⟩ := range_split (M * N) (c + r * N) hi0
    have hmod : (c + r * N) % N = c := decompose_mod c r N hcN
    have hdiv : (c + r * N) / N = r := decompose_div c r N hcN
    have hg : (c + r * N) % N < min M N := by rw [hmod]; exact hc
    have hrest : ∀ i ∈ l2, i % N < min M N →
        i % N + (i / N) * min M N
          ≠ (c + r * N) % N + ((c + r * N) / N) * min M N := by
      intro i hi hgi heq
      have hij := split_l_addr_inj N (min M N) hgi hg heq
      have := hgt i hi
      omega
    have hw := gw_foldl_write (fun i => i % N < min M N)
        (fun i => i % N + (i / N) * min M N)
        (fun i => (split_lu_vals LU M N i).1)
        (List.range (c + r * N)) l2 (c + r * N) L0 hg hrest
    simp only [] at hw
    rw [hmod, hdiv] at hw
    unfold cupy_split_lu
    rw [cupy_split_lu_fst, hrange, hw]
    simp only [split_lu_vals, hmod, hdiv]
    by_cases h1 : r > c
    · rw [if_pos h1, if_pos h1]
    · rw [if_neg h1, if_neg h1]
      by_cases h2 : r = c
      · rw [if_pos h2, if_pos h2]
      · rw [if_neg h2, if_neg h2]
  refine ⟨hL, ?_, ?_⟩
  · intro r c hr hc
    have hrM : r < M := lt_of_lt_of_le hr (min_le_left M N)
    have hi0 : c + r * N < M * N := grid_index_lt r c M N hrM hc
    obtain ⟨l2, hrange, hgt⟩ := range_split (M * N) (c + r * N) hi0
    have hmod : (c + r * N) % N = c := decompose_mod c r N hc
    have hdiv : (c + r * N) / N = r := decompose_div c r N hc
    have hg : (c + r * N) / N < min M N := by rw [hdiv]; exact hr
    have hrest : ∀ i ∈ l2, i / N < min M N →
        i % N + (i / N) * N
          ≠ (c + r * N) % N + ((c + r * N) / N) * N := by
      intro i hi _ heq
      rw [split_u_addr_eq, split_u_addr_eq] at heq
      have := hgt i hi
      omega
    have hw := gw_foldl_write (fun i => i / N < min M N)
        (fun i => i % N + (i / N) * N)
        (fun i => (split_lu_vals LU M N i).2)
        (List.range (c + r * N)) l2 (c + r * N) U0 hg hrest
    simp only [] at hw
    rw [split_u_addr_eq] at hw
    unfold cupy_split_lu
    rw [cupy_split_lu_snd, hrange, hw]
    simp only [split_lu_vals, hmod, hdiv]
    by_cases h1 : r > c
    · rw [if_pos h1, if_pos h1]
    · rw [if_neg h1, if_neg h1]
      by_cases h2 : r = c
      · rw [if_pos h2]
      · rw [if_neg h2]
  · intro i hi
    have := hL i i (lt_of_lt_of_le hi (min_le_left M N)) hi
    rw [this]
    simp

/-- Witness for C1: concrete evaluation of the `L` characterization at a
strictly-lower cell of a `2 × 2` extraction. -/
theorem c1_split_lu_triangular_factors_witness :
    (cupy_split_lu (fun a => (a : ℤ) + 10) 2 2 (min 2 2)
        (fun _ => 0) (fun _ => 0)).1 (0 + 1 * min 2 2)
      = if 1 > 0 then (fun a => (a : ℤ) + 10) (1 + 0 * 2)
        else if 1 = 0 then 1 else 0 :=
  (c1_split_lu_triangular_factors 2 2 (fun a => (a : ℤ) + 10)
    (fun _ => 0) (fun _ => 0)).1 1 0 (by decide) (by decide)

/-- Claim C6: in the extraction kernel each task writes `L` only when its
column index is below `K` and `U` only when its row index is below `K`
(at the single computed address), and the task-to-address maps into `L`
and into `U` are injective on their guarded domains, so no two distinct
tasks write the same cell. -/
theorem c6_split_lu_write_partitioning (M N K : Nat) (LU : Buf ℤ) :
    (∀ (st : Buf ℤ × Buf ℤ) (i a : Nat),
        (cupy_split_lu_task LU M N K st i).1 a ≠ st.1 a →
          i % N < K ∧ a = i % N + (i / N) * K) ∧
    (∀ (st : Buf ℤ × Buf ℤ) (i a : Nat),
        (cupy_split_lu_task LU M N K st i).2 a ≠ st.2 a →
          i / N < K ∧ a = i % N + (i / N) * N) ∧
    (∀ i j, i < M * N → j < M * N → i % N < K → j % N < K →
        i % N + (i / N) * K = j % N + (j / N) * K → i = j) ∧
    (∀ i j, i < M * N → j < M * N → i / N < K → j / N < K →
        i % N + (i / N) * N = j % N + (j / N) * N → i = j) := by
  refine ⟨?_, ?_, ?_, ?_⟩
  · intro st i a hne
    simp only [cupy_split_lu_task] at hne
    by_cases hg : i % N < K
    · rw [if_pos hg] at hne
      refine ⟨hg, ?_⟩
      by_contra ha
      exact hne (writeBuf_ne _ _ _ _ ha)
    · rw [if_neg hg] at hne
      exact absurd rfl hne
  · intro st i a hne
    simp only [cupy_split_lu_task] at hne
    by_cases hg : i / N < K
    · rw [if_pos hg] at hne
      refine ⟨hg, ?_⟩
      by_contra ha
      exact hne (writeBuf_ne _ _ _ _ ha)
    · rw [if_neg hg] at hne
      exact absurd rfl hne
  · intro i j _ _ hi hj h
    exact split_l_addr_inj N K hi hj h
  · intro i j _ _ _ _ h
    rw [split_u_addr_eq, split_u_addr_eq] at h
    exact h

/-- Witness for C6: task `2` of a `2 × 2` grid performs an actual `L` write,
and the write-partitioning facts hold there. -/
theorem c6_split_lu_write_partitioning_witness :
    2 % 2 < 2 ∧ (2 : Nat) = 2 % 2 + (2 / 2) * 2 :=
  (c6_split_lu_write_partitioning 2 2 2 (fun _ => (5 : ℤ))).1
    (fun _ => 0, fun _ => 0) 2 2 (by decide)

/-! ### The `cupy_laswp` elementwise kernel -/

/-- One iteration of the swap loop of the `cupy_laswp` kernel body for the
task owning column `col` of a row-major `(?, N)` matrix: read
`row_j = PIV[row_k]`; skip if `row_j <= row_k`; otherwise exchange the
elements at `col + row_k * N` and `col + row_j * N` through a temporary. -/
def cupy_laswp_col_step {α : Type} (N : Nat) (piv : Nat → Nat) (col : Nat)
    (b : Buf α) (row_k : Nat) : Buf α :=
  if piv row_k ≤ row_k then b
  else
    writeBuf (writeBuf b (col + row_k * N) (b (col + piv row_k * N)))
      (col + piv row_k * N) (b (col + row_k * N))

/-- One task of the `cupy_laswp` kernel: replay the full swap list
(`row_k` ascending over `0..K-1`) for the task's own column. -/
def cupy_laswp_col {α : Type} (N K : Nat) (piv : Nat → Nat) (b : Buf α)
    (col : Nat) : Buf α :=
  (List.range K).foldl (cupy_laswp_col_step N piv col) b

/-- The `cupy_laswp` kernel launched with `size` tasks (one per column),
tasks replayed in ascending column order.  `M` is carried along as in the
kernel signature but the body never reads it. -/
def cupy_laswp {α : Type} (M N K : Nat) (piv : Nat → Nat) (b : Buf α)
    (size : Nat) : Buf α :=
  (List.range size).foldl (fun A col => cupy_laswp_col N K piv A col) b

/-- The same per-column swap list replayed in descending `row_k` order
(the order the kernel does NOT use). -/
def cupy_laswp_col_rev {α : Type} (N K : Nat) (piv : Nat → Nat) (b : Buf α)
    (col : Nat) : Buf α :=
  ((List.range K).reverse).foldl (cupy_laswp_col_step N piv col) b

/-- Column `col` of a flat row-major buffer of width `N`, as a vector. -/
def colOf {α : Type} (N col : Nat) (b : Buf α) : Nat → α :=
  fun r => b (col + r * N)

/-- The effect of one swap-list entry on a single column vector. -/
def colSwapStep {α : Type} (piv : Nat → Nat) (v : Nat → α) (k : Nat) :
    Nat → α :=
  if piv k ≤ k then v
  else fun r => if r = k then v (piv k) else if r = piv k then v k else v r

/-- The whole ascending swap list applied to a single column vector. -/
def permuteCol {α : Type} (K : Nat) (piv : Nat → Nat) (v : Nat → α) :
    Nat → α :=
  (List.range K).foldl (colSwapStep piv) v

/-- Two addresses in the same column of a width-`N` row-major buffer agree
only at the same row. -/
lemma col_addr_ne {N col : Nat} (hcol : col < N) {r1 r2 : Nat}
    (hne : r1 ≠ r2) : col + r1 * N ≠ col + r2 * N :=
  fun he => hne (addr_unique hcol hcol he).2

/-- Addresses in distinct columns of a width-`N` row-major buffer differ. -/
lemma cross_col_addr_ne {N ca cb : Nat} (hca : ca < N) (hcb : cb < N)
    (hne : ca ≠ cb) (r1 r2 : Nat) : ca + r1 * N ≠ cb + r2 * N :=
  fun he => hne (addr_unique hca hcb he).1

/-- One kernel swap step, viewed on its own column. -/
lemma colOf_laswp_col_step {α : Type} (N : Nat) (piv : Nat → Nat) (col : Nat)
    (hcol : col < N) (b : Buf α) (k : Nat) :
    colOf N col (cupy_laswp_col_step N piv col b k)
      = colSwapStep piv (colOf N col b) k := by
  funext r
  unfold cupy_laswp_col_step colSwapStep colOf
  by_cases hj : piv k ≤ k
  · rw [if_pos hj, if_pos hj]
  · rw [if_neg hj, if_neg hj]
    by_cases hrj : r = piv k
    · subst hrj
      rw [writeBuf_self]
      have hk : ¬ piv k = k := by omega
      rw [if_neg hk, if_pos rfl]
    · rw [writeBuf_ne _ _ _ _ (col_addr_ne hcol hrj)]
      by_cases hrk : r = k
      · subst hrk
        rw [writeBuf_self, if_pos rfl]
      · rw [writeBuf_ne _ _ _ _ (col_addr_ne hcol hrk), if_neg hrk,
          if_neg hrj]

/-- One kernel swap step leaves every other column untouched. -/
lemma colOf_laswp_col_step_other {α : Type} (N : Nat) (piv : Nat → Nat)
    (col col' : Nat) (hcol : col < N) (hcol' : col' < N) (hne : col' ≠ col)
    (b : Buf α) (k : Nat) :
    colOf N col' (cupy_laswp_col_step N piv col b k) = colOf N col' b := by
  funext r
  unfold cupy_laswp_col_step colOf
  by_cases hj : piv k ≤ k
  · rw [if_pos hj]
  · rw [if_neg hj,
      writeBuf_ne _ _ _ _ (cross_col_addr_ne hcol' hcol hne r (piv k)),
      writeBuf_ne _ _ _ _ (cross_col_addr_ne hcol' hcol hne r k)]

/-- A `cupy_laswp` task equals the abstract column permutation on its own
column. -/
lemma colOf_laswp_col {α : Type} (N K : Nat) (piv : Nat → Nat) (col : Nat)
    (hcol : col < N) (b : Buf α) :
    colOf N col (cupy_laswp_col N K piv b col)
      = permuteCol K piv (colOf N col b) := by
  unfold cupy_laswp_col permuteCol
  generalize List.range K = l
  induction l generalizing b with
  | nil => rfl
  | cons x xs ih =>
      rw [List.foldl_cons, List.foldl_cons, ih,
        colOf_laswp_col_step N piv col hcol b x]

/-- A `cupy_laswp` task leaves every other column untouched. -/
lemma colOf_laswp_col_other {α : Type} (N K : Nat) (piv : Nat → Nat)
    (col col' : Nat) (hcol : col < N) (hcol' : col' < N) (hne : col' ≠ col)
    (b : Buf α) :
    colOf N col' (cupy_laswp_col N K piv b col) = colOf N col' b := by
  unfold cupy_laswp_col
  generalize List.range K = l
  induction l generalizing b with
  | nil => rfl
  | cons x xs ih =>
      rw [List.foldl_cons, ih,
        colOf_laswp_col_step_other N piv col col' hcol hcol' hne b x]

/-- Replaying a duplicate-free list of in-range column tasks: each column is
permuted once if its task is in the list, otherwise untouched. -/
lemma colOf_laswp_foldl {α : Type} (N K : Nat) (piv : Nat → Nat)
    (l : List Nat) (col : Nat) (hcol : col < N) (hl : ∀ c ∈ l, c < N)
    (hnd : l.Nodup) (b : Buf α) :
    colOf N col (l.foldl (fun A c => cupy_laswp_col N K piv A c) b)
      = if col ∈ l then permuteCol K piv (colOf N col b)
        else colOf N col b := by
  induction l generalizing b with
  | nil => simp
  | cons x xs ih =>
      rw [List.foldl_cons]
      have hx : x < N := hl x (List.mem_cons_self x xs)
      have hxs : ∀ c ∈ xs, c < N := fun c hc => hl c (List.mem_cons_of_mem _ hc)
      have hnd2 : xs.Nodup := (List.nodup_cons.mp hnd).2
      by_cases hcx : col = x
      · subst hcx
        have hnotin : col ∉ xs := (List.nodup_cons.mp hnd).1
        rw [ih hxs hnd2, if_neg hnotin, colOf_laswp_col N K piv col hcol b,
          if_pos (List.mem_cons_self col xs)]
      · have hcc : colOf N col (cupy_laswp_col N K piv b x) = colOf N col b :=
          colOf_laswp_col_other N K piv x col hx hcol hcx b
        rw [ih hxs hnd2, hcc]
        by_cases hin : col ∈ xs
        · rw [if_pos hin, if_pos (List.mem_cons_of_mem _ hin)]
        · rw [if_neg hin, if_neg (by
            intro hmem
            rcases List.mem_cons.mp hmem with h | h
            · exact hcx h
            · exact hin h)]

/-- The full `cupy_laswp` launch with one task per column (`size = N`)
permutes every column by the abstract column permutation. -/
lemma colOf_cupy_laswp {α : Type} (M N K : Nat) (piv : Nat → Nat)
    (b : Buf α) (col : Nat) (hcol : col < N) :
    colOf N col (cupy_laswp M N K piv b N)
      = permuteCol K piv (colOf N col b) := by
  unfold cupy_laswp
  rw [colOf_laswp_foldl N K piv (List.range N) col hcol
      (fun c hc => List.mem_range.mp hc) (List.nodup_range N) b,
    if_pos (List.mem_range.mpr hcol)]

/-! ### The row permutation realized by the ascending swap replay -/

/-- The transposition performed by swap-list entry `k` (identity when
`piv k <= k`, i.e. when the kernel skips the entry). -/
def tauAt (piv : Nat → Nat) (k r : Nat) : Nat :=
  if piv k ≤ k then r
  else if r = k then piv k else if r = piv k then k else r

/-- The row map realized by replaying entries `0..K-1` ascending: position
`r` of the replayed column holds input row `sigmaPiv K piv r`. -/
def sigmaPiv (K : Nat) (piv : Nat → Nat) (r : Nat) : Nat :=
  (List.range K).foldr (tauAt piv) r

/-- The inverse row map, composing the transpositions the other way. -/
def sigmaPivInv (K : Nat) (piv : Nat → Nat) (r : Nat) : Nat :=
  (List.range K).foldl (fun r k => tauAt piv k r) r

lemma tauAt_invol (piv : Nat → Nat) (k r : Nat) :
    tauAt piv k (tauAt piv k r) = r := by
  unfold tauAt
  by_cases hj : piv k ≤ k
  · rw [if_pos hj, if_pos hj]
  · rw [if_neg hj]
    have hk : ¬ piv k = k := by omega
    by_cases hrk : r = k
    · rw [if_pos hrk, if_neg hj, if_neg hk, if_pos rfl]
      exact hrk.symm
    · rw [if_neg hrk]
      by_cases hrj : r = piv k
      · rw [if_pos hrj, if_neg hj, if_pos rfl]
        exact hrj.symm
      · rw [if_neg hrj, if_neg hj, if_neg hrk, if_neg hrj]

lemma colSwapStep_apply {α : Type} (piv : Nat → Nat) (v : Nat → α)
    (k r : Nat) : colSwapStep piv v k r = v (tauAt piv k r) := by
  unfold colSwapStep tauAt
  by_cases hj : piv k ≤ k
  · rw [if_pos hj, if_pos hj]
  · rw [if_neg hj, if_neg hj]
    by_cases hrk : r = k
    · rw [if_pos hrk, if_pos hrk]
    · rw [if_neg hrk, if_neg hrk]
      by_cases hrj : r = piv k
      · rw [if_pos hrj, if_pos hrj]
      · rw [if_neg hrj, if_neg hrj]

lemma sigmaPiv_succ (n : Nat) (piv : Nat → Nat) (r : Nat) :
    sigmaPiv (n + 1) piv r = sigmaPiv n piv (tauAt piv n r) := by
  unfold sigmaPiv
  rw [List.range_succ, List.foldr_append, List.foldr_cons, List.foldr_nil]

lemma sigmaPivInv_succ (n : Nat) (piv : Nat → Nat) (r : Nat) :
    sigmaPivInv (n + 1) piv r = tauAt piv n (sigmaPivInv n piv r) := by
  unfold sigmaPivInv
  rw [List.range_succ, List.foldl_append, List.foldl_cons, List.foldl_nil]

/-- Replaying the ascending swap list on a column vector reads the vector
through the row map `sigmaPiv`. -/
lemma permuteCol_apply {α : Type} (K : Nat) (piv : Nat → Nat) (v : Nat → α)
    (r : Nat) : permuteCol K piv v r = v (sigmaPiv K piv r) := by
  induction K generalizing r with
  | zero => rfl
  | succ n ih =>
      unfold permuteCol at ih ⊢
      rw [List.range_succ, List.foldl_append, List.foldl_cons, List.foldl_nil,
        colSwapStep_apply, ih (tauAt piv n r), sigmaPiv_succ]

lemma sigmaPiv_leftInv (K : Nat) (piv : Nat → Nat) (r : Nat) :
    sigmaPiv K piv (sigmaPivInv K piv r) = r := by
  induction K with
  | zero => rfl
  | succ n ih =>
      rw [sigmaPivInv_succ, sigmaPiv_succ, tauAt_invol, ih]

lemma sigmaPiv_rightInv (K : Nat) (piv : Nat → Nat) (r : Nat) :
    sigmaPivInv K piv (sigmaPiv K piv r) = r := by
  induction K generalizing r with
  | zero => rfl
  | succ n ih =>
      rw [sigmaPiv_succ, sigmaPivInv_succ, ih, tauAt_invol]

lemma tauAt_lt {M : Nat} (piv : Nat → Nat) {k : Nat} (hk : k < M)
    (hpk : piv k < M) {r : Nat} (hr : r < M) : tauAt piv k r < M := by
  unfold tauAt
  split_ifs <;> omega

lemma sigmaPiv_lt (M K : Nat) (piv : Nat → Nat) :
    K ≤ M → (∀ k, k < K → piv k < M) → ∀ r, r < M →
      sigmaPiv K piv r < M := by
  induction K with
  | zero => intro _ _ r hr; exact hr
  | succ n ih =>
      intro hKM hpiv r hr
      rw [sigmaPiv_succ]
      exact ih (by omega) (fun k hk => hpiv k (by omega)) _
        (tauAt_lt piv (by omega) (hpiv n (by omega)) hr)

lemma sigmaPivInv_lt (M K : Nat) (piv : Nat → Nat) :
    K ≤ M → (∀ k, k < K → piv k < M) → ∀ r, r < M →
      sigmaPivInv K piv r < M := by
  induction K with
  | zero => intro _ _ r hr; exact hr
  | succ n ih =>
      intro hKM hpiv r hr
      rw [sigmaPivInv_succ]
      exact tauAt_lt piv (by omega) (hpiv n (by omega))
        (ih (by omega) (fun k hk => hpiv k (by omega)) r hr)

/-- The `(M, M)` identity matrix built by `cupy.diag(cupy.ones((m,)))`,
as a flat row-major buffer: `1` where `row == col`. -/
def idBuf (M : Nat) : Buf ℤ :=
  fun a => if a / M = a % M then 1 else 0

/-- Evaluating the `cupy_laswp` launch on the identity matrix: cell
`(r, c)` of the result is `1` exactly when `sigmaPiv K piv r = c`. -/
lemma cupy_laswp_idBuf (M K : Nat) (piv : Nat → Nat) (c r : Nat)
    (hc : c < M) :
    cupy_laswp M M K piv (idBuf M) M (c + r * M)
      = if sigmaPiv K piv r = c then 1 else 0 := by
  have h1 := colOf_cupy_laswp M M K piv (idBuf M) c hc
  show colOf M c (cupy_laswp M M K piv (idBuf M) M) r = _
  rw [h1, permuteCol_apply]
  unfold colOf idBuf
  rw [decompose_div c (sigmaPiv K piv r) M hc,
    decompose_mod c (sigmaPiv K piv r) M hc]

/-- Claim C2: for every pivot vector of length `K` with entries in
`[i, M)`, replaying the `cupy_laswp` kernel on the `(M, M)` identity
matrix yields a valid permutation matrix: exactly one `1` in every row
and in every column, all other entries `0`. -/
theorem c2_laswp_permutation_matrix (M K : Nat) (piv : Nat → Nat)
    (hKM : K ≤ M) (hpiv : ∀ k, k < K → k ≤ piv k ∧ piv k < M) :
    (∀ r, r < M → ∃ c, c < M ∧
        cupy_laswp M M K piv (idBuf M) M (c + r * M) = 1 ∧
        ∀ c2, c2 < M → c2 ≠ c →
          cupy_laswp M M K piv (idBuf M) M (c2 + r * M) = 0) ∧
    (∀ c, c < M → ∃ r, r < M ∧
        cupy_laswp M M K piv (idBuf M) M (c + r * M) = 1 ∧
        ∀ r2, r2 < M → r2 ≠ r →
          cupy_laswp M M K piv (idBuf M) M (c + r2 * M) = 0) := by
  have hpM : ∀ k, k < K → piv k < M := fun k hk => (hpiv k hk).2
  constructor
  · intro r hr
    have hc : sigmaPiv K piv r < M := sigmaPiv_lt M K piv hKM hpM r hr
    refine ⟨sigmaPiv K piv r, hc, ?_, ?_⟩
    · rw [cupy_laswp_idBuf M K piv _ r hc, if_pos rfl]
    · intro c2 hc2 hne
      rw [cupy_laswp_idBuf M K piv c2 r hc2]
      exact if_neg (fun he => hne he.symm)
  · intro c hc
    have hrM : sigmaPivInv K piv c < M := sigmaPivInv_lt M K piv hKM hpM c hc
    refine ⟨sigmaPivInv K piv c, hrM, ?_, ?_⟩
    · rw [cupy_laswp_idBuf M K piv c _ hc,
        if_pos (sigmaPiv_leftInv K piv c)]
    · intro r2 hr2 hne
      rw [cupy_laswp_idBuf M K piv c r2 hc]
      refine if_neg (fun he => hne ?_)
      rw [← sigmaPiv_rightInv K piv r2, he]

/-- Witness for C2: the concrete pivot vector `[1, 2, 2]` on the `3 × 3`
identity produces a valid permutation matrix. -/
theorem c2_laswp_permutation_matrix_witness :
    (∀ r, r < 3 → ∃ c, c < 3 ∧
        cupy_laswp 3 3 3 (fun k => if k = 0 then 1 else 2) (idBuf 3) 3
          (c + r * 3) = 1 ∧
        ∀ c2, c2 < 3 → c2 ≠ c →
          cupy_laswp 3 3 3 (fun k => if k = 0 then 1 else 2) (idBuf 3) 3
            (c2 + r * 3) = 0) ∧
    (∀ c, c < 3 → ∃ r, r < 3 ∧
        cupy_laswp 3 3 3 (fun k => if k = 0 then 1 else 2) (idBuf 3) 3
          (c + r * 3) = 1 ∧
        ∀ r2, r2 < 3 → r2 ≠ r →
          cupy_laswp 3 3 3 (fun k => if k = 0 then 1 else 2) (idBuf 3) 3
            (c + r2 * 3) = 0) :=
  c2_laswp_permutation_matrix 3 3 (fun k => if k = 0 then 1 else 2)
    (by omega) (by decide)

/-! ### The sequential whole-row reference algorithm for `cupy_laswp` -/

/-- Exchange the whole rows `r` and `j` of a flat row-major buffer of
width `N`. -/
def swapRows {α : Type} (N r j : Nat) (b : Buf α) : Buf α :=
  fun a =>
    if a / N = r then b (a % N + j * N)
    else if a / N = j then b (a % N + r * N)
    else b a

/-- One step of the sequential algorithm: apply swap-list entry `k` to the
whole matrix (skipping exactly when the kernel skips). -/
def laswp_seq_step {α : Type} (N : Nat) (piv : Nat → Nat) (b : Buf α)
    (k : Nat) : Buf α :=
  if piv k ≤ k then b else swapRows N k (piv k) b

/-- The sequential algorithm: whole-row exchanges applied for `row_k`
ascending over `0..K-1`. -/
def laswp_seq {α : Type} (N K : Nat) (piv : Nat → Nat) (b : Buf α) : Buf α :=
  (List.range K).foldl (laswp_seq_step N piv) b

lemma colOf_laswp_seq_step {α : Type} (N : Nat) (piv : Nat → Nat)
    (col : Nat) (hcol : col < N) (b : Buf α) (k : Nat) :
    colOf N col (laswp_seq_step N piv b k)
      = colSwapStep piv (colOf N col b) k := by
  funext r
  unfold laswp_seq_step colSwapStep colOf swapRows
  by_cases hj : piv k ≤ k
  · rw [if_pos hj, if_pos hj]
  · rw [if_neg hj, if_neg hj,
      decompose_div col r N hcol, decompose_mod col r N hcol]

lemma colOf_laswp_seq {α : Type} (N K : Nat) (piv : Nat → Nat) (col : Nat)
    (hcol : col < N) (b : Buf α) :
    colOf N col (laswp_seq N K piv b)
      = permuteCol K piv (colOf N col b) := by
  unfold laswp_seq permuteCol
  generalize List.range K = l
  induction l generalizing b with
  | nil => rfl
  | cons x xs ih =>
      rw [List.foldl_cons, List.foldl_cons, ih,
        colOf_laswp_seq_step N piv col hcol b x]

lemma laswp_seq_step_width_zero {α : Type} (piv : Nat → Nat) (b : Buf α)
    (k : Nat) : laswp_seq_step 0 piv b k = b := by
  funext a
  unfold laswp_seq_step swapRows
  by_cases hj : piv k ≤ k
  · rw [if_pos hj]
  · rw [if_neg hj]
    simp only [Nat.div_zero, Nat.mod_zero, Nat.mul_zero, Nat.add_zero]
    by_cases hk : (0 : Nat) = k
    · rw [if_pos hk]
    · rw [if_neg hk]
      by_cases hpk : (0 : Nat) = piv k
      · rw [if_pos hpk]
      · rw [if_neg hpk]

lemma laswp_seq_width_zero {α : Type} (K : Nat) (piv : Nat → Nat)
    (b : Buf α) : laswp_seq 0 K piv b = b := by
  unfold laswp_seq
  generalize List.range K = l
  induction l generalizing b with
  | nil => rfl
  | cons x xs ih =>
      rw [List.foldl_cons, laswp_seq_step_width_zero piv b x, ih]

/-- Claim C5: the per-column replay done by `cupy_laswp` (one task per
column, each replaying the full swap list ascending) equals the
sequential algorithm applying whole-row exchanges ascending; columns
never interact; and replaying the swaps in another order (descending)
is not in general equal to the ascending replay. -/
theorem c5_laswp_per_column_refinement :
    (∀ (M N K : Nat) (piv : Nat → Nat) (b : Buf ℤ),
        cupy_laswp M N K piv b N = laswp_seq N K piv b) ∧
    (∀ (M N K : Nat) (piv : Nat → Nat) (b b2 : Buf ℤ) (col : Nat),
        col < N → (∀ r, b (col + r * N) = b2 (col + r * N)) →
        ∀ r, cupy_laswp M N K piv b N (col + r * N)
              = cupy_laswp M N K piv b2 N (col + r * N)) ∧
    ¬ (∀ (K : Nat) (piv : Nat → Nat) (b : Buf ℤ) (col a : Nat),
        cupy_laswp_col_rev 1 K piv b col a = cupy_laswp_col 1 K piv b col a)
    := by
  refine ⟨?_, ?_, ?_⟩
  · intro M N K piv b
    cases N with
    | zero =>
        show b = laswp_seq 0 K piv b
        rw [laswp_seq_width_zero]
    | succ n =>
        funext a
        have hN : 0 < n + 1 := Nat.succ_pos n
        have hcol : a % (n + 1) < n + 1 := Nat.mod_lt a hN
        have ha : a % (n + 1) + a / (n + 1) * (n + 1) = a :=
          Nat.mod_add_div' a (n + 1)
        conv_lhs => rw [← ha]
        conv_rhs => rw [← ha]
        calc cupy_laswp M (n + 1) K piv b (n + 1)
                (a % (n + 1) + a / (n + 1) * (n + 1))
            = colOf (n + 1) (a % (n + 1))
                (cupy_laswp M (n + 1) K piv b (n + 1)) (a / (n + 1)) := rfl
          _ = permuteCol K piv (colOf (n + 1) (a % (n + 1)) b)
                (a / (n + 1)) := by
              rw [colOf_cupy_laswp M (n + 1) K piv b (a % (n + 1)) hcol]
          _ = colOf (n + 1) (a % (n + 1)) (laswp_seq (n + 1) K piv b)
                (a / (n + 1)) := by
              rw [colOf_laswp_seq (n + 1) K piv (a % (n + 1)) hcol b]
          _ = laswp_seq (n + 1) K piv b
                (a % (n + 1) + a / (n + 1) * (n + 1)) := rfl
  · intro M N K piv b b2 col hcol hsame r
    have hcoleq : colOf N col b = colOf N col b2 := funext hsame
    show colOf N col (cupy_laswp M N K piv b N) r
        = colOf N col (cupy_laswp M N K piv b2 N) r
    rw [colOf_cupy_laswp M N K piv b col hcol,
      colOf_cupy_laswp M N K piv b2 col hcol, hcoleq]
  · intro h
    exact absurd (h 2 (fun k => k + 1) (fun a => (a : ℤ)) 0 0) (by decide)

/-- Witness for C5: the column-locality part applied at a concrete pair of
buffers that agree on column `0` of a width-`2` matrix but differ at
address `1`. -/
theorem c5_laswp_per_column_refinement_witness :
    cupy_laswp 1 2 1 (fun _ => 1) (fun a => (a : ℤ)) 2 (0 + 5 * 2)
      = cupy_laswp 1 2 1 (fun _ => 1)
          (fun a => if a = 1 then 42 else (a : ℤ)) 2 (0 + 5 * 2) :=
  c5_laswp_per_column_refinement.2.1 1 2 1 (fun _ => 1)
    (fun a => (a : ℤ)) (fun a => if a = 1 then 42 else (a : ℤ)) 0
    (by decide) (fun r => (if_neg (by omega)).symm) 5

/-! ### Value model: dtypes, non-finite scalars, checks and adapters -/

/-- The four supported dtype characters of `_lu_factor` / `lu_solve`:
`f` = float32, `d` = float64, `cF` = complex64 (char `F`),
`cD` = complex128 (char `D`). -/
inductive DtypeChar : Type
  | f
  | d
  | cF
  | cD
deriving DecidableEq

/-- `dtype.kind == 'f'`: true exactly for the real floating dtypes;
complex dtypes have numpy kind `'c'`. -/
def DtypeChar.kindIsRealFloating : DtypeChar → Bool
  | .f => true
  | .d => true
  | .cF => false
  | .cD => false

/-- `dtype.char in 'fF'` (the single-precision dtypes, line 107). -/
def DtypeChar.charIn_fF : DtypeChar → Bool
  | .f => true
  | .cF => true
  | .d => false
  | .cD => false

/-- Whether the dtype is complex-valued. -/
def DtypeChar.isComplex : DtypeChar → Bool
  | .cF => true
  | .cD => true
  | .f => false
  | .d => false

/-- Whether the dtype is single precision (real or complex). -/
def DtypeChar.isSingle : DtypeChar → Bool
  | .f => true
  | .cF => true
  | .d => false
  | .cD => false

/-- Concrete numeric element types of arrays. -/
inductive NumElemType : Type
  | f32
  | f64
  | c64
  | c128
deriving DecidableEq

/-- The element type denoted by a dtype char. -/
def DtypeChar.elemType : DtypeChar → NumElemType
  | .f => .f32
  | .d => .f64
  | .cF => .c64
  | .cD => .c128

/-- `r_dtype = numpy.float32 if lu.dtype.char in 'fF' else numpy.float64`
(line 107): the element type of the explicit permutation matrix `P`. -/
def p_matrix_dtype (dt : DtypeChar) : NumElemType :=
  if dt.charIn_fF then NumElemType.f32 else NumElemType.f64

/-- A scalar component that is either a finite value or one of the
non-finite IEEE values (NaN, positive/negative infinity).  The finite
payload is irrelevant to the checks and kept as an integer. -/
inductive FpVal : Type
  | val : Int → FpVal
  | nan : FpVal
  | inf : FpVal
  | ninf : FpVal
deriving DecidableEq

/-- `cupy.isfinite` on one scalar component. -/
def FpVal.isFinite : FpVal → Bool
  | .val _ => true
  | .nan => false
  | .inf => false
  | .ninf => false

/-- The finiteness guard of `_lu_factor` (lines 136-139) and of each of the
two checks in `lu_solve` (lines 290-299):
`if check_finite: if a.dtype.kind == 'f' and not cupy.isfinite(a).all():
raise ValueError`.  Returns whether the error is raised. -/
def check_finite_raises (check_finite : Bool) (dt : DtypeChar)
    (vals : List FpVal) : Bool :=
  check_finite && (dt.kindIsRealFloating && !(vals.all FpVal.isFinite))

/-- `ipiv -= 1` (line 163): pivot translation to the 0-origin convention. -/
def to_zero_origin (v : List Int) : List Int :=
  v.map (fun p => p - 1)

/-- `ipiv += 1` (line 287): pivot translation to the 1-origin convention
the external primitive expects. -/
def to_one_origin (v : List Int) : List Int :=
  v.map (fun p => p + 1)

/-- The status handling of `_lu_factor` after the `getrf` call
(lines 155-165), as a function of `dev_info[0]` and the primitive's
outputs: negative status raises a ValueError carrying `-dev_info[0]`
(the offending argument index); positive status emits the singular-matrix
warning (recorded as `some dev_info`) and falls through; then `ipiv -= 1`
runs and `(a, ipiv)` is returned. -/
def getrf_result_handling {β : Type} (dev_info : Int) (a : β)
    (ipiv : List Int) : Except Int (β × List Int × Option Int) :=
  if dev_info < 0 then Except.error (-dev_info)
  else if dev_info > 0 then
    Except.ok (a, ipiv.map (fun p => p - 1), some dev_info)
  else Except.ok (a, ipiv.map (fun p => p - 1), none)

/-- The cuBLAS operation constants selected by `lu_solve`'s `trans`
dispatch. -/
inductive CublasOp : Type
  | op_n
  | op_t
  | op_c
deriving DecidableEq

/-- Errors `lu_solve` can raise before reaching the `getrs` primitive. -/
inductive SolveError : Type
  | incompatible_dimensions
  | unknown_trans
  | non_finite
deriving DecidableEq

/-- The `trans` dispatch of `lu_solve` (lines 275-282): `0`, `1`, `2` map
to the no-transpose, transpose and conjugate-transpose operations; any
other value raises a ValueError. -/
def trans_to_op (trans : Int) : Except SolveError CublasOp :=
  if trans = 0 then Except.ok CublasOp.op_n
  else if trans = 1 then Except.ok CublasOp.op_t
  else if trans = 2 then Except.ok CublasOp.op_c
  else Except.error SolveError.unknown_trans

/-- The arguments `lu_solve` hands to the external `getrs` primitive. -/
structure GetrsArgs where
  trans : CublasOp
  m : Nat
  n : Nat
  ipiv : List Int
deriving DecidableEq

/-- `lu_solve` up to the `getrs` invocation, in source order: the
dimension check (lines 259-261), the `trans` dispatch (lines 275-282),
the pivot copy and 1-origin translation (lines 285-287), the two
finiteness checks on the packed factor and the right-hand side
(lines 290-299), and finally the argument record passed to `getrs`. -/
def lu_solve (m_lu : Nat) (dt : DtypeChar) (lu_vals b_vals : List FpVal)
    (m_b n_rhs : Nat) (ipiv : List Int) (trans : Int)
    (check_finite : Bool) : Except SolveError GetrsArgs :=
  if m_lu ≠ m_b then Except.error SolveError.incompatible_dimensions
  else
    match trans_to_op trans with
    | Except.error e => Except.error e
    | Except.ok op =>
        if check_finite
            && (dt.kindIsRealFloating && !(lu_vals.all FpVal.isFinite)) then
          Except.error SolveError.non_finite
        else if check_finite
            && (dt.kindIsRealFloating && !(b_vals.all FpVal.isFinite)) then
          Except.error SolveError.non_finite
        else Except.ok ⟨op, m_lu, n_rhs, to_one_origin ipiv⟩

/-- A tiny store of integer arrays; an array reference is an index into
the store.  `lu_solve`'s pivot handling is modelled against it so that
aliasing (copy versus in-place mutation) is observable. -/
abbrev Store : Type := List (List Int)

/-- `ipiv.astype(ipiv.dtype, order='F', copy=True)` (line 285): allocate a
fresh buffer holding a copy of the addressed array and return its
reference. -/
def astype_copy (store : Store) (idx : Nat) : Store × Nat :=
  (store ++ [store.getD idx []], store.length)

/-- In-place `ipiv += 1` (line 287) on the addressed array. -/
def iadd_one (store : Store) (idx : Nat) : Store :=
  store.set idx ((store.getD idx []).map (fun p => p + 1))

/-- The pivot preparation of `lu_solve` (lines 285-287): copy the caller's
pivot array, then translate the copy to 1-origin in place.  Returns the
new store and the reference of the working copy. -/
def lu_solve_piv_prep (store : Store) (ipiv : Nat) : Store × Nat :=
  let p := astype_copy store ipiv
  (iadd_one p.1 p.2, p.2)

lemma all_isFinite_false_iff (vals : List FpVal) :
    vals.all FpVal.isFinite = false ↔ ∃ v ∈ vals, v.isFinite = false := by
  induction vals with
  | nil => simp
  | cons x xs ih =>
      cases hx : x.isFinite
      · simp [List.all_cons, hx]
      · simp [List.all_cons, hx, ih]

lemma getD_append_left (l l2 : List (List Int)) (i : Nat)
    (h : i < l.length) : (l ++ l2).getD i [] = l.getD i [] := by
  induction l generalizing i with
  | nil => exact absurd h (Nat.not_lt_zero i)
  | cons a as ih =>
      cases i with
      | zero => rfl
      | succ n =>
          simp only [List.cons_append, List.getD_cons_succ]
          exact ih n (by simpa using h)

lemma getD_last_append (l : List (List Int)) (x : List Int) :
    (l ++ [x]).getD l.length [] = x := by
  induction l with
  | nil => rfl
  | cons a as ih => simpa using ih

lemma set_last_append (l : List (List Int)) (v x : List Int) :
    (l ++ [v]).set l.length x = l ++ [x] := by
  induction l with
  | nil => rfl
  | cons a as ih => simp [List.set, ih]

/-- The working-copy store after `lu_solve`'s pivot preparation: the
caller's slot is untouched and the fresh slot holds the translated copy. -/
lemma lu_solve_piv_prep_store (store : Store) (idx : Nat)
    (h : idx < store.length) :
    (lu_solve_piv_prep store idx).1
      = store ++ [(store.getD idx []).map (fun p => p + 1)] := by
  unfold lu_solve_piv_prep astype_copy iadd_one
  simp only []
  rw [getD_last_append, set_last_append]

/-- Counterexample to C3 as stated: with checking enabled, a complex-valued
(`'F'` dtype) matrix containing NaN does not raise, because the guard
`a.dtype.kind == 'f'` excludes complex kinds — so the check does not hold
for real-valued and complex-valued matrices alike. -/
theorem c3_finite_check_counterexample :
    ¬ (check_finite_raises true DtypeChar.cF [FpVal.nan] = true
        ↔ ∃ v ∈ [FpVal.nan], v.isFinite = false) := by
  decide

/-- Amended C3: the finiteness check raises iff checking is enabled, the
dtype kind is real floating (`'f'`/`'d'`; complex matrices are never
checked), and some element is non-finite; with checking disabled nothing
raises; and the same guard applies independently to `lu_solve`'s packed
factor and right-hand side. -/
theorem c3_finite_check_amended (check : Bool) (dt : DtypeChar)
    (vals lu_vals b_vals : List FpVal) (m n_rhs : Nat) (ipiv : List Int) :
    (check_finite_raises check dt vals = true
      ↔ (check = true ∧ dt.kindIsRealFloating = true ∧
          ∃ v ∈ vals, v.isFinite = false)) ∧
    (check_finite_raises false dt vals = false) ∧
    (lu_solve m dt lu_vals b_vals m n_rhs ipiv 0 check
        = Except.error SolveError.non_finite
      ↔ (check = true ∧ dt.kindIsRealFloating = true ∧
          ((∃ v ∈ lu_vals, v.isFinite = false) ∨
           (∃ v ∈ b_vals, v.isFinite = false)))) := by
  refine ⟨?_, ?_, ?_⟩
  · simp [check_finite_raises, Bool.and_eq_true, Bool.not_eq_true',
      all_isFinite_false_iff]
  · simp [check_finite_raises]
  · cases check <;> cases hk : dt.kindIsRealFloating <;>
      cases hlu : lu_vals.all FpVal.isFinite <;>
        cases hb : b_vals.all FpVal.isFinite <;>
          simp [lu_solve, trans_to_op, hk, hlu, hb, ← all_isFinite_false_iff]

/-- Claim C4: negative `getrf` status fails with an error carrying the
offending argument index; positive status `k` does not fail, emits the
singular-matrix warning referencing diagonal `k` and returns the outputs
as produced; zero status returns them with no warning. -/
theorem c4_getrf_status_handling (dev_info : Int) (a : List FpVal)
    (ipiv : List Int) :
    (dev_info < 0 →
      getrf_result_handling dev_info a ipiv = Except.error (-dev_info)) ∧
    (dev_info > 0 →
      getrf_result_handling dev_info a ipiv
        = Except.ok (a, ipiv.map (fun p => p - 1), some dev_info)) ∧
    (dev_info = 0 →
      getrf_result_handling dev_info a ipiv
        = Except.ok (a, ipiv.map (fun p => p - 1), none)) := by
  refine ⟨?_, ?_, ?_⟩
  · intro h
    unfold getrf_result_handling
    rw [if_pos h]
  · intro h
    unfold getrf_result_handling
    rw [if_neg (by omega), if_pos h]
  · intro h
    unfold getrf_result_handling
    rw [if_neg (by omega), if_neg (by omega)]

/-- Witness for C4: status `-2` surfaces as the error carrying argument
index `2` and returns no result. -/
theorem c4_getrf_status_handling_witness :
    getrf_result_handling (-2 : Int) ([] : List FpVal) ([] : List Int)
      = Except.error (-(-2 : Int)) :=
  (c4_getrf_status_handling (-2) [] []).1 (by omega)

/-- Claim C7: pivot translation is a pure round trip
(`to_zero_origin (to_one_origin v) = v`); `_lu_factor` subtracts `1` from
every pivot entry exactly once before returning; and `lu_solve` adds `1`
to every entry of its working pivot copy exactly once before invoking the
primitive. -/
theorem c7_pivot_origin_translation (v ipiv : List Int) (a : List FpVal)
    (dev_info : Int) (store : Store) (idx : Nat) (h : idx < store.length) :
    (to_zero_origin (to_one_origin v) = v) ∧
    (0 ≤ dev_info →
      getrf_result_handling dev_info a ipiv
        = Except.ok (a, to_zero_origin ipiv,
            if dev_info > 0 then some dev_info else none)) ∧
    ((lu_solve_piv_prep store idx).1.getD (lu_solve_piv_prep store idx).2 []
        = to_one_origin (store.getD idx [])) := by
  refine ⟨?_, ?_, ?_⟩
  · unfold to_zero_origin to_one_origin
    rw [List.map_map]
    have he : ((fun p => p - 1) ∘ fun p : Int => p + 1) = id := by
      funext p
      simp [Function.comp]
    rw [he, List.map_id]
  · intro h0
    unfold getrf_result_handling to_zero_origin
    rw [if_neg (by omega)]
    by_cases hp : dev_info > 0
    · rw [if_pos hp, if_pos hp]
    · rw [if_neg hp, if_neg hp]
  · have hs := lu_solve_piv_prep_store store idx h
    have hidx : (lu_solve_piv_prep store idx).2 = store.length := rfl
    rw [hs, hidx, getD_last_append]
    rfl

/-- Witness for C7: the round trip and both translations at the concrete
pivot vector `[2, 3]` held in a one-slot store. -/
theorem c7_pivot_origin_translation_witness :
    (to_zero_origin (to_one_origin [2, 3]) = [2, 3]) ∧
    ((0 : Int) ≤ 0 →
      getrf_result_handling (0 : Int) ([] : List FpVal) [2, 3]
        = Except.ok ([], to_zero_origin [2, 3],
            if (0 : Int) > 0 then some (0 : Int) else none)) ∧
    ((lu_solve_piv_prep [[2, 3]] 0).1.getD (lu_solve_piv_prep [[2, 3]] 0).2 []
        = to_one_origin ([[2, 3]].getD 0 [])) :=
  c7_pivot_origin_translation [2, 3] [2, 3] [] 0 [[2, 3]] 0 (by decide)

/-- Claim C8: `lu_solve` maps `trans` values `0`, `1`, `2` to the
no-transpose, transpose and conjugate-transpose operations passed to the
`getrs` primitive, and any other `trans` value fails before the primitive
is invoked. -/
theorem c8_trans_dispatch (m n_rhs : Nat) (dt : DtypeChar)
    (lu_vals b_vals : List FpVal) (ipiv : List Int) (check : Bool) :
    (∀ args, lu_solve m dt lu_vals b_vals m n_rhs ipiv 0 check
        = Except.ok args → args.trans = CublasOp.op_n) ∧
    (∀ args, lu_solve m dt lu_vals b_vals m n_rhs ipiv 1 check
        = Except.ok args → args.trans = CublasOp.op_t) ∧
    (∀ args, lu_solve m dt lu_vals b_vals m n_rhs ipiv 2 check
        = Except.ok args → args.trans = CublasOp.op_c) ∧
    (∀ trans : Int, trans ≠ 0 → trans ≠ 1 → trans ≠ 2 → ∀ m_b args,
        lu_solve m dt lu_vals b_vals m_b n_rhs ipiv trans check
          ≠ Except.ok args) := by
  have hok : ∀ (t : Int) (op : CublasOp), trans_to_op t = Except.ok op →
      ∀ args, lu_solve m dt lu_vals b_vals m n_rhs ipiv t check
        = Except.ok args → args.trans = op := by
    intro t op ht args h
    unfold lu_solve at h
    rw [if_neg (fun hne => hne rfl), ht] at h
    simp only [] at h
    by_cases hg1 : (check
        && (dt.kindIsRealFloating && !(lu_vals.all FpVal.isFinite))) = true
    · rw [if_pos hg1] at h
      exact absurd h (by simp)
    · rw [if_neg hg1] at h
      by_cases hg2 : (check
          && (dt.kindIsRealFloating && !(b_vals.all FpVal.isFinite))) = true
      · rw [if_pos hg2] at h
        exact absurd h (by simp)
      · rw [if_neg hg2] at h
        injection h with h2
        rw [← h2]
  refine ⟨hok 0 CublasOp.op_n rfl, hok 1 CublasOp.op_t rfl,
    hok 2 CublasOp.op_c rfl, ?_⟩
  intro t h0 h1 h2 m_b args h
  unfold lu_solve at h
  by_cases hm : m ≠ m_b
  · rw [if_pos hm] at h
    exact absurd h (by simp)
  · rw [if_neg hm] at h
    have ht : trans_to_op t = Except.error SolveError.unknown_trans := by
      unfold trans_to_op
      rw [if_neg h0, if_neg h1, if_neg h2]
    rw [ht] at h
    exact absurd h (by simp)

/-- Witness for C8: a concrete successful solve call with `trans = 0`
reaches the primitive with the no-transpose operation. -/
theorem c8_trans_dispatch_witness :
    (GetrsArgs.mk CublasOp.op_n 2 1 (to_one_origin [0, 1])).trans
      = CublasOp.op_n :=
  (c8_trans_dispatch 2 1 DtypeChar.f [] [] [0, 1] true).1
    ⟨CublasOp.op_n, 2, 1, to_one_origin [0, 1]⟩ rfl

/-- Claim C9: `lu_solve` performs the 1-origin translation on a fresh copy
of the pivot array (`copy=True`), so the caller's pivot slot holds exactly
the same entries after the preparation as before. -/
theorem c9_solve_pivot_unmutated (store : Store) (idx : Nat)
    (h : idx < store.length) :
    (lu_solve_piv_prep store idx).1.getD idx [] = store.getD idx [] := by
  rw [lu_solve_piv_prep_store store idx h]
  exact getD_append_left store _ idx h

/-- Witness for C9: the caller's pivot slot of a concrete one-slot store
is unchanged by the pivot preparation. -/
theorem c9_solve_pivot_unmutated_witness :
    (lu_solve_piv_prep [[5, 7]] 0).1.getD 0 [] = [[5, 7]].getD 0 [] :=
  c9_solve_pivot_unmutated [[5, 7]] 0 (by decide)

/-- Claim C10: the explicit permutation matrix `P` always has a real
element type — float32 when the factorization dtype is single precision
(real or complex), float64 otherwise — so for complex inputs `P`'s dtype
differs from the dtype of the returned `L` and `U`. -/
theorem c10_p_matrix_real_dtype (dt : DtypeChar) :
    (p_matrix_dtype dt
        = if dt.isSingle = true then NumElemType.f32 else NumElemType.f64) ∧
    (p_matrix_dtype dt = NumElemType.f32 ∨
      p_matrix_dtype dt = NumElemType.f64) ∧
    (dt.isComplex = true → p_matrix_dtype dt ≠ dt.elemType) := by
  cases dt <;> exact ⟨by decide, by decide, by decide⟩

/-- Witness for C10: for the complex64 dtype the permutation matrix dtype
differs from the factor dtype. -/
theorem c10_p_matrix_real_dtype_witness :
    p_matrix_dtype DtypeChar.cF ≠ DtypeChar.elemType DtypeChar.cF :=
  (c10_p_matrix_real_dtype DtypeChar.cF).2.2 rfl
